import Mathlib

/-!
Verification of the popsigner Rust SDK core (`src/sdk-rust/src/`):
batch signing semantics (`sign.rs`), Celestia address derivation and the
Bech32 codec (`celestia.rs`), key resolution, local input validation and the
error-taxonomy translation.  Machine integers are modelled as `Nat` with
explicit `% 2^w` where overflow matters; byte strings as `List Nat`;
fallible operations as `Except`; external collaborators (the HTTP transport,
the base64 codec, the hash functions, the UUID parser) are parameters.
-/

deriving instance DecidableEq for Except

namespace PopSigner

/-- Error enum of the SDK (`src/sdk-rust/src/error.rs`, there named
`BanhBaoRingError`; the identical enum is used as `POPSignerError` in
`src/sdk-rust/src/celestia.rs`).  The `Http` variant's `reqwest::Error`
payload is modelled by its display string. -/
inductive POPSignerError where
  | Api (code : String) (message : String) (status_code : Nat)
  | Http (msg : String)
  | Decode (msg : String)
  | Unauthorized
  | RateLimited
  | QuotaExceeded (msg : String)
  | KeyNotFound (msg : String)
  | NamespaceNotFound (msg : String)
  | OrgNotFound (msg : String)
  | InvalidRequest (msg : String)
  | SigningError (msg : String)
  | BatchPartialFailure (failed : Nat) (total : Nat)
  deriving DecidableEq, Repr

/-- One entry of a batch sign request (`BatchSignItem`,
`src/sdk-rust/src/types.rs`).  `Uuid` is modelled as `Nat`, bytes as
`List Nat`. -/
structure BatchSignItem where
  key_id : Nat
  data : List Nat
  prehashed : Bool
  deriving DecidableEq, Repr

/-- Batch sign request (`BatchSignRequest`, `src/sdk-rust/src/types.rs`). -/
structure BatchSignRequest where
  requests : List BatchSignItem
  deriving DecidableEq, Repr

/-- Result of a sign operation (`SignResponse`, `src/sdk-rust/src/types.rs`):
decoded signature bytes plus the hex public key reported by the service. -/
structure SignResponse where
  key_id : Nat
  signature : List Nat
  public_key : String
  deriving DecidableEq, Repr

/-- Per-item element of the remote batch response (`ApiSignature` inside
`sign_batch`, `src/sdk-rust/src/sign.rs`): a base64 signature string, the
public key, and an optional error marker. -/
structure ApiSignature where
  key_id : Nat
  signature : String
  public_key : String
  error : Option String
  deriving DecidableEq, Repr

/-- The result-collection loop of `sign_batch` (`src/sdk-rust/src/sign.rs`
lines 188-206): iterate over the returned signatures in order; an item
carrying an error marker increments the failure counter and is skipped;
otherwise the base64 signature is decoded (the whole loop aborts with
`Decode` on failure) and a `SignResponse` is appended.  `dec` is the
external base64 decoder (`BASE64.decode`), returning the error's display
string on failure. -/
def signBatchLoop (dec : String → Except String (List Nat)) :
    List ApiSignature → List SignResponse → Nat →
      Except POPSignerError (List SignResponse × Nat)
  | [], results, errors => .ok (results, errors)
  | sig :: rest, results, errors =>
    if sig.error.isSome then
      signBatchLoop dec rest results (errors + 1)
    else
      match dec sig.signature with
      | .error e => .error (.Decode e)
      | .ok sigBytes =>
          signBatchLoop dec rest
            (results ++ [⟨sig.key_id, sigBytes, sig.public_key⟩]) errors

/-- `sign_batch` (`src/sdk-rust/src/sign.rs` lines 148-216) with the remote
call abstracted: `response` is the list of per-item results returned by the
server for the submitted `request`.  After the collection loop, a wholly
failed batch (`errors > 0 && results.is_empty()`) is turned into a
`BatchPartialFailure` carrying the failure count and the number of submitted
items. -/
def sign_batch (dec : String → Except String (List Nat))
    (request : BatchSignRequest) (response : List ApiSignature) :
    Except POPSignerError (List SignResponse) :=
  match signBatchLoop dec response [] 0 with
  | .error e => .error e
  | .ok (results, errors) =>
    if errors > 0 ∧ results = [] then
      .error (.BatchPartialFailure errors request.requests.length)
    else
      .ok results

/-- Number of response items carrying an error marker. -/
def countErrors (response : List ApiSignature) : Nat :=
  (response.filter (fun s => s.error.isSome)).length

/-- The successfully decoded responses, in response order: error-marked
items are dropped, each remaining item's signature is decoded and paired
with its key identifier and public key.  (Items whose decoding fails are
dropped here; `sign_batch` instead aborts on them.) -/
def successResults (dec : String → Except String (List Nat))
    (response : List ApiSignature) : List SignResponse :=
  response.filterMap fun s =>
    match s.error with
    | some _ => none
    | none =>
      match dec s.signature with
      | .ok b => some ⟨s.key_id, b, s.public_key⟩
      | .error _ => none

theorem countErrors_cons (s : ApiSignature) (rest : List ApiSignature) :
    countErrors (s :: rest) =
      (if s.error.isSome then 1 else 0) + countErrors rest := by
  by_cases h : s.error.isSome
  · simp [countErrors, List.filter_cons, h]
    omega
  · simp [countErrors, List.filter_cons, h]

theorem successResults_cons_some (dec : String → Except String (List Nat))
    (s : ApiSignature) (rest : List ApiSignature) (v : String)
    (h : s.error = some v) :
    successResults dec (s :: rest) = successResults dec rest := by
  simp [successResults, List.filterMap_cons, h]

theorem successResults_cons_ok (dec : String → Except String (List Nat))
    (s : ApiSignature) (rest : List ApiSignature) (b : List Nat)
    (h : s.error = none) (hdec : dec s.signature = .ok b) :
    successResults dec (s :: rest) =
      ⟨s.key_id, b, s.public_key⟩ :: successResults dec rest := by
  simp [successResults, List.filterMap_cons, h, hdec]

theorem signBatchLoop_ok (dec : String → Except String (List Nat))
    (response : List ApiSignature)
    (h : ∀ s ∈ response, s.error = none → (dec s.signature).isOk) :
    ∀ acc n, signBatchLoop dec response acc n =
      .ok (acc ++ successResults dec response, n + countErrors response) := by
  induction response with
  | nil => intro acc n; simp [signBatchLoop, successResults, countErrors]
  | cons s rest ih =>
    intro acc n
    rcases hs : s.error with _ | v
    · have hok := h s (by simp) hs
      rcases hdec : dec s.signature with e | b
      · rw [hdec] at hok; simp [Except.isOk, Except.toBool] at hok
      · have ih' := ih (fun x hx => h x (by simp [hx]))
        rw [signBatchLoop]
        simp [hs, hdec, ih', successResults_cons_ok dec s rest b hs hdec,
          countErrors_cons]
    · have ih' := ih (fun x hx => h x (by simp [hx]))
      rw [signBatchLoop]
      simp [hs, ih', successResults_cons_some dec s rest v hs,
        countErrors_cons]
      omega

theorem signBatchLoop_errors_eq (dec : String → Except String (List Nat))
    (response : List ApiSignature) :
    ∀ acc n r e, signBatchLoop dec response acc n = .ok (r, e) →
      e = n + countErrors response := by
  induction response with
  | nil =>
    intro acc n r e h
    simp [signBatchLoop] at h
    simp [countErrors, h]
  | cons s rest ih =>
    intro acc n r e h
    rcases hs : s.error with _ | v
    · rcases hdec : dec s.signature with msg | b
      · simp [signBatchLoop, hs, hdec] at h
      · rw [signBatchLoop] at h
        simp [hs, hdec] at h
        have := ih _ _ _ _ h
        simp [countErrors_cons, hs]
        omega
    · rw [signBatchLoop] at h
      simp [hs] at h
      have := ih _ _ _ _ h
      simp [countErrors_cons, hs]
      omega

theorem signBatchLoop_error_decode (dec : String → Except String (List Nat))
    (response : List ApiSignature) :
    ∀ acc n e, signBatchLoop dec response acc n = .error e →
      ∃ msg, e = .Decode msg := by
  induction response with
  | nil => intro acc n e h; simp [signBatchLoop] at h
  | cons s rest ih =>
    intro acc n e h
    rcases hs : s.error with _ | v
    · rcases hdec : dec s.signature with msg | b
      · rw [signBatchLoop] at h
        simp [hs, hdec] at h
        exact ⟨msg, h.symm⟩
      · rw [signBatchLoop] at h
        simp [hs, hdec] at h
        exact ih _ _ _ h
    · rw [signBatchLoop] at h
      simp [hs] at h
      exact ih _ _ _ h

theorem signBatchLoop_decode_fail (dec : String → Except String (List Nat))
    (response : List ApiSignature) (s : ApiSignature) (hmem : s ∈ response)
    (hnone : s.error = none) (e : String) (hfail : dec s.signature = .error e) :
    ∀ acc n, ∃ msg, signBatchLoop dec response acc n = .error (.Decode msg) := by
  induction response with
  | nil => cases hmem
  | cons s' rest ih =>
    intro acc n
    rcases hs' : s'.error with _ | v
    · rcases hdec : dec s'.signature with msg | b
      · exact ⟨msg, by rw [signBatchLoop]; simp [hs', hdec]⟩
      · have hmem' : s ∈ rest := by
          rcases List.mem_cons.1 hmem with h | h
          · subst h; rw [hdec] at hfail; cases hfail
          · exact h
        have ⟨msg, hmsg⟩ := ih hmem'
            (acc ++ [⟨s'.key_id, b, s'.public_key⟩]) n
        exact ⟨msg, by rw [signBatchLoop]; simp [hs', hdec]; exact hmsg⟩
    · have hmem' : s ∈ rest := by
        rcases List.mem_cons.1 hmem with h | h
        · subst h; rw [hnone] at hs'; cases hs'
        · exact h
      have ⟨msg, hmsg⟩ := ih hmem' acc (n + 1)
      exact ⟨msg, by rw [signBatchLoop]; simp [hs']; exact hmsg⟩

theorem countErrors_pos_mem (response : List ApiSignature)
    (h : 0 < countErrors response) : ∃ s ∈ response, s.error.isSome = true := by
  unfold countErrors at h
  rcases List.exists_mem_of_length_pos h with ⟨s, hs⟩
  exact ⟨s, (List.mem_filter.1 hs).1, (List.mem_filter.1 hs).2⟩

/-- Model base64 decoder used for concrete evaluations: the string `"sig"`
decodes to the byte `[9]`, every other string is malformed. -/
def decModel : String → Except String (List Nat) :=
  fun str => if str = "sig" then Except.ok [9] else Except.error "bad b64"

/-- Four-item batch request used for concrete evaluations. -/
def reqFour : BatchSignRequest :=
  ⟨[⟨0, [1], false⟩, ⟨1, [2], false⟩, ⟨2, [3], false⟩, ⟨3, [4], false⟩]⟩

/-- Remote response with two error-marked items and two decodable items. -/
def respTwoErr : List ApiSignature :=
  [⟨0, "sig", "pk", none⟩, ⟨1, "sig", "pk", none⟩,
   ⟨2, "x", "pk", some "e1"⟩, ⟨3, "y", "pk", some "e2"⟩]

/-- Remote response where all four items carry error markers. -/
def respAllErr : List ApiSignature :=
  [⟨0, "x", "pk", some "e1"⟩, ⟨1, "x", "pk", some "e2"⟩,
   ⟨2, "x", "pk", some "e3"⟩, ⟨3, "x", "pk", some "e4"⟩]

/-- C1 counterexample: the claim says that whenever at least one returned
item carries a signature that decodes successfully, `sign_batch` returns the
partial success sequence without raising an error.  On a response whose
first item decodes successfully but whose second non-error item is
malformed base64, `sign_batch` instead fails with `Decode`. -/
theorem sign_batch_c1_counterexample :
    (∃ s ∈ ([⟨0, "sig", "pk", none⟩, ⟨1, "bad", "pk", none⟩] :
        List ApiSignature),
      s.error = none ∧ (decModel s.signature).isOk = true) ∧
    sign_batch decModel ⟨[⟨0, [1], false⟩, ⟨1, [2], false⟩]⟩
      [⟨0, "sig", "pk", none⟩, ⟨1, "bad", "pk", none⟩] =
      .error (.Decode "bad b64") := by
  decide

/-- C1 (amended): provided every non-error item of the remote response
decodes successfully, `sign_batch` fails with `BatchPartialFailure{failed,
total}` iff the number of error-marked items is nonzero and the decoded
success sequence is empty, with `failed` the error-marked count and `total`
the number of submitted items; and whenever at least one item succeeds, the
partial success sequence is returned without an error. -/
theorem sign_batch_partial_failure_policy
    (dec : String → Except String (List Nat)) (request : BatchSignRequest)
    (response : List ApiSignature)
    (h : ∀ s ∈ response, s.error = none → (dec s.signature).isOk) :
    ((∃ f t, sign_batch dec request response =
        .error (.BatchPartialFailure f t)) ↔
      countErrors response ≠ 0 ∧ successResults dec response = []) ∧
    (∀ f t, sign_batch dec request response =
        .error (.BatchPartialFailure f t) →
      f = countErrors response ∧ t = request.requests.length) ∧
    (successResults dec response ≠ [] →
      sign_batch dec request response = .ok (successResults dec response)) := by
  have hloop := signBatchLoop_ok dec response h [] 0
  unfold sign_batch
  rw [hloop]
  simp only [List.nil_append, Nat.zero_add]
  by_cases hc : countErrors response > 0 ∧ successResults dec response = []
  · rw [if_pos hc]
    refine ⟨⟨fun _ => ⟨by omega, hc.2⟩, fun _ => ⟨_, _, rfl⟩⟩, ?_, ?_⟩
    · intro f t hft
      simp at hft
      exact ⟨hft.1.symm, hft.2.symm⟩
    · intro hne
      exact absurd hc.2 hne
  · rw [if_neg hc]
    refine ⟨⟨fun hex => ?_, fun hrs => ?_⟩, ?_, fun _ => rfl⟩
    · obtain ⟨f, t, hft⟩ := hex
      simp at hft
    · exact absurd ⟨by omega, hrs.2⟩ hc
    · intro f t hft
      simp at hft

/-- C1 witness: on four submitted items with exactly two error-marked
results, the two decoded successes are returned without an error; on four
submitted items all error-marked, the call fails with
`BatchPartialFailure`. -/
theorem sign_batch_partial_failure_policy_witness :
    sign_batch decModel reqFour respTwoErr =
      .ok [⟨0, [9], "pk"⟩, ⟨1, [9], "pk"⟩] ∧
    (∃ f t, sign_batch decModel reqFour respAllErr =
      .error (.BatchPartialFailure f t)) :=
  ⟨((sign_batch_partial_failure_policy decModel reqFour respTwoErr
        (by decide)).2.2 (by decide)).trans (by decide),
   ((sign_batch_partial_failure_policy decModel reqFour respAllErr
        (by decide)).1).2 ⟨by decide, by decide⟩⟩

/-- C9: in the batch loop, error-marked items are counted and omitted while
every other item is decoded and `(key identifier, signature bytes, public
key)` is appended, so the loop returns the decoded successes together with
the error count; and if any non-error item's signature fails to decode, the
whole `sign_batch` call fails with a `Decode` error. -/
theorem sign_batch_item_accounting
    (dec : String → Except String (List Nat)) (request : BatchSignRequest)
    (response : List ApiSignature) :
    ((∀ s ∈ response, s.error = none → (dec s.signature).isOk) →
      signBatchLoop dec response [] 0 =
        .ok (successResults dec response, countErrors response)) ∧
    (∀ s ∈ response, s.error = none → ∀ e, dec s.signature = .error e →
      ∃ msg, sign_batch dec request response = .error (.Decode msg)) := by
  constructor
  · intro h
    simpa using signBatchLoop_ok dec response h [] 0
  · intro s hmem hnone e hfail
    obtain ⟨msg, hmsg⟩ :=
      signBatchLoop_decode_fail dec response s hmem hnone e hfail [] 0
    exact ⟨msg, by unfold sign_batch; rw [hmsg]⟩

/-- C9 witness: on a response with one error-marked item and one decodable
item, the loop returns the single success and one counted failure; on a
response containing a malformed non-error signature, `sign_batch` fails
with `Decode`. -/
theorem sign_batch_item_accounting_witness :
    signBatchLoop decModel
      [⟨0, "x", "pk", some "err"⟩, ⟨1, "sig", "pk", none⟩] [] 0 =
      .ok ([⟨1, [9], "pk"⟩], 1) ∧
    (∃ msg, sign_batch decModel ⟨[⟨2, [1], false⟩]⟩
      [⟨2, "oops", "pk", none⟩] = .error (.Decode msg)) :=
  ⟨((sign_batch_item_accounting decModel ⟨[⟨2, [1], false⟩]⟩
        [⟨0, "x", "pk", some "err"⟩, ⟨1, "sig", "pk", none⟩]).1
      (by decide)).trans (by decide),
   (sign_batch_item_accounting decModel ⟨[⟨2, [1], false⟩]⟩
        [⟨2, "oops", "pk", none⟩]).2
      ⟨2, "oops", "pk", none⟩ (by decide) (by decide) "bad b64" (by decide)⟩

/-- C10: an empty remote response makes `sign_batch` return an empty success
sequence rather than an error, even when the submitted batch was non-empty;
`BatchPartialFailure` can only arise when at least one returned item
carries an error marker. -/
theorem sign_batch_empty_response_ok
    (dec : String → Except String (List Nat)) (request : BatchSignRequest) :
    sign_batch dec request [] = .ok [] ∧
    (∀ response f t, sign_batch dec request response =
        .error (.BatchPartialFailure f t) →
      ∃ s ∈ response, s.error.isSome = true) := by
  constructor
  · simp [sign_batch, signBatchLoop]
  · intro response f t hbpf
    unfold sign_batch at hbpf
    split at hbpf
    · rename_i e heq
      obtain ⟨msg, rfl⟩ :=
        signBatchLoop_error_decode dec response [] 0 e heq
      simp at hbpf
    · rename_i r n heq
      split at hbpf
      · rename_i hcond
        have := signBatchLoop_errors_eq dec response [] 0 r n heq
        exact countErrors_pos_mem response (by omega)
      · simp at hbpf

/-- C10 witness: with a non-empty one-item request and an empty remote
response, the call succeeds with no results; a `BatchPartialFailure`
outcome exhibits an error-marked response item. -/
theorem sign_batch_empty_response_ok_witness :
    sign_batch decModel ⟨[⟨0, [1], false⟩]⟩ [] = .ok [] ∧
    (∃ s ∈ ([⟨0, "sig", "pk", some "err"⟩] : List ApiSignature),
      s.error.isSome = true) :=
  ⟨(sign_batch_empty_response_ok decModel ⟨[⟨0, [1], false⟩]⟩).1,
   (sign_batch_empty_response_ok decModel ⟨[⟨0, [1], false⟩]⟩).2
      [⟨0, "sig", "pk", some "err"⟩] 1 1 (by decide)⟩

/-! ### Bech32 codec and address derivation (`src/sdk-rust/src/celestia.rs`) -/

/-- Inner `while bits >= 5` loop of `bech32_encode`
(`src/sdk-rust/src/celestia.rs` lines 921-925): while at least 5 bits are
pending, emit the top 5 pending bits of the accumulator (`bits -= 5;
converted.push((acc >> bits) as u8 & 0x1f)`).  The first argument is a
structural-recursion fuel; every call supplies fuel at least the pending
bit count, so the loop is reproduced exactly. -/
def b32Drain : Nat → Nat → Nat → List Nat → Nat × List Nat
  | 0, _, bits, conv => (bits, conv)
  | fuel + 1, acc, bits, conv =>
    if bits ≥ 5 then
      b32Drain fuel acc (bits - 5) (conv ++ [(acc >>> (bits - 5)) % 32])
    else
      (bits, conv)

/-- Outer byte loop of the 8-bit to 5-bit conversion in `bech32_encode`
(lines 918-925): `acc = (acc << 8) | u32::from(b)` in `u32` arithmetic,
then drain complete 5-bit groups.  Returns the final
`(acc, bits, converted)` state. -/
def b32Loop : List Nat → Nat → Nat → List Nat → Nat × Nat × List Nat
  | [], acc, bits, conv => (acc, bits, conv)
  | b :: rest, acc, bits, conv =>
    let acc2 := ((acc <<< 8) % 4294967296) ||| b
    let s := b32Drain (bits + 8) acc2 (bits + 8) conv
    b32Loop rest acc2 s.1 s.2

/-- Complete 8-bit to 5-bit regrouping of `bech32_encode` (lines 914-928):
run the byte loop, then, if leftover bits remain, append the final group
`(acc << (5 - bits)) as u8 & 0x1f` (in `u32` arithmetic). -/
def convertBits8to5 (data : List Nat) : List Nat :=
  if (b32Loop data 0 0 []).2.1 > 0 then
    (b32Loop data 0 0 []).2.2 ++
      [((b32Loop data 0 0 []).1 <<< (5 - (b32Loop data 0 0 []).2.1))
        % 4294967296 % 32]
  else
    (b32Loop data 0 0 []).2.2

/-- `expand_hrp` (lines 955-965): high 3 bits of each prefix byte, a zero
separator, then the low 5 bits of each prefix byte.  `c as u8` is modelled
as `c.toNat % 256`. -/
def expand_hrp (hrp : String) : List Nat :=
  hrp.data.map (fun c => (c.toNat % 256) >>> 5) ++ [0]
    ++ hrp.data.map (fun c => (c.toNat % 256) &&& 0x1f)

/-- Generator constants of `bech32_polymod` (line 968). -/
def GEN : List Nat := [0x3b6a57b2, 0x26508e6d, 0x1ea119fa, 0x3d4233dd, 0x2a1462b3]

/-- One iteration of the `bech32_polymod` fold (lines 971-979): shift the
low 25 bits of the state up by 5, mix in the next 5-bit value, then
conditionally XOR each generator according to the top 5 bits that were
shifted out. -/
def polymodStep (chk v : Nat) : Nat :=
  let b := chk >>> 25
  let chk2 := ((chk &&& 0x1ffffff) <<< 5) ^^^ v
  GEN.enum.foldl (fun c ig => if (b >>> ig.1) &&& 1 = 1 then c ^^^ ig.2 else c) chk2

/-- `bech32_polymod` (lines 967-982): fold `polymodStep` over the values
starting from state 1. -/
def bech32_polymod (values : List Nat) : Nat :=
  values.foldl polymodStep 1

/-- Checksum section of `bech32_encode` (lines 930-938): polymod of the
expanded prefix, the 5-bit data groups and six zero placeholders, XORed
with 1, then six 5-bit values extracted most significant group first. -/
def bech32_checksum (hrp : String) (converted : List Nat) : List Nat :=
  let values := expand_hrp hrp ++ converted ++ [0, 0, 0, 0, 0, 0]
  let polymod := bech32_polymod values ^^^ 1
  (List.range 6).map fun i => (polymod >>> (5 * (5 - i))) &&& 0x1f

/-- Bech32 character set (line 940). -/
def CHARSET : List Char := "qpzry9x8gf2tvdw0s3jn54khce6mua7l".data

/-- `bech32_encode` (lines 913-953): prefix, separator `'1'`, the mapped
data groups, then the mapped checksum.  The Rust function returns
`Ok(result)` unconditionally, so it is modelled as a pure function. -/
def bech32_encode (hrp : String) (data : List Nat) : String :=
  let converted := convertBits8to5 data
  let checksum := bech32_checksum hrp converted
  hrp ++ "1" ++ String.mk (converted.map fun b => CHARSET.getD b ' ')
    ++ String.mk (checksum.map fun b => CHARSET.getD b ' ')

/-- `derive_celestia_address` (lines 897-911): reject public keys whose
length is not 33 bytes, otherwise Bech32-encode, with prefix `"celestia"`,
the RIPEMD-160 hash of the SHA-256 hash of the key.  The two hash
functions come from the external `sha2` and `ripemd` crates and are
parameters of the model. -/
def derive_celestia_address (sha256 ripemd160 : List Nat → List Nat)
    (public_key : List Nat) : Except POPSignerError String :=
  if public_key.length ≠ 33 then
    .error (.InvalidRequest
      ("invalid public key length: expected 33 bytes, got "
        ++ toString public_key.length))
  else
    .ok (bech32_encode "celestia" (ripemd160 (sha256 public_key)))

/-! ### Specification vocabulary for the bit-regrouping claims -/

/-- Low `k` bits of `n`, most significant bit first. -/
def natBits (n : Nat) : Nat → List Bool
  | 0 => []
  | k + 1 => n.testBit k :: natBits n k

/-- Value of a bit list read most significant bit first. -/
def bitsVal (l : List Bool) : Nat :=
  l.foldl (fun a b => 2 * a + b.toNat) 0

/-- Bit stream of a byte sequence, most significant bit first within each
byte. -/
def bytesToBits (data : List Nat) : List Bool :=
  (data.map (fun b => natBits b 8)).flatten

/-- Values of the complete (5-bit) groups of a bit stream, taken from the
front. -/
def fullGroupVals (l : List Bool) : List Nat :=
  (List.range (l.length / 5)).map fun i => bitsVal ((l.drop (5 * i)).take 5)

/-- Bits left over after removing the complete 5-bit groups. -/
def remBits (l : List Bool) : List Bool :=
  l.drop (5 * (l.length / 5))

/-- Modelled from the spec, right-padding reading: regroup the bit stream
into 5-bit groups most significant bit first, the final partial group
filled up with zero bits on the least significant side; no group for an
empty leftover. -/
def specRegroupRightPad (data : List Nat) : List Nat :=
  fullGroupVals (bytesToBits data) ++
    if (bytesToBits data).length % 5 = 0 then []
    else [bitsVal (remBits (bytesToBits data) ++
      List.replicate (5 - (bytesToBits data).length % 5) false)]

/-- Modelled from the spec, literal reading of C5: the final partial group
is left-padded with zero bits (zeros on the most significant side). -/
def specRegroupLeftPad (data : List Nat) : List Nat :=
  fullGroupVals (bytesToBits data) ++
    if (bytesToBits data).length % 5 = 0 then []
    else [bitsVal (List.replicate (5 - (bytesToBits data).length % 5) false ++
      remBits (bytesToBits data))]

/-- Modelled from the spec (C6): checksum-seed sequence built from the high
3 bits and low 5 bits of each prefix character around a zero separator,
followed by the data groups and six zero placeholders; polynomial checksum
XORed with 1; six 5-bit values extracted most significant group first,
written with division and remainder by powers of 32. -/
def specChecksum (hrp : String) (groups : List Nat) : List Nat :=
  (List.range 6).map fun i =>
    (bech32_polymod ((hrp.data.map (fun c => c.toNat % 256 / 32) ++ [0]
          ++ hrp.data.map (fun c => c.toNat % 256 % 32))
        ++ groups ++ List.replicate 6 0) ^^^ 1)
      / 32 ^ (5 - i) % 32

theorem bitsVal_from (l : List Bool) :
    ∀ a : Nat, l.foldl (fun a b => 2 * a + b.toNat) a =
      a * 2 ^ l.length + l.foldl (fun a b => 2 * a + b.toNat) 0 := by
  induction l with
  | nil => intro a; simp
  | cons x l ih =>
    intro a
    simp only [List.foldl_cons, List.length_cons]
    rw [ih (2 * a + x.toNat), ih (2 * 0 + x.toNat)]
    ring

theorem bitsVal_cons (x : Bool) (l : List Bool) :
    bitsVal (x :: l) = x.toNat * 2 ^ l.length + bitsVal l := by
  simp only [bitsVal, List.foldl_cons]
  rw [bitsVal_from]
  ring

theorem bitsVal_append (l₁ l₂ : List Bool) :
    bitsVal (l₁ ++ l₂) = bitsVal l₁ * 2 ^ l₂.length + bitsVal l₂ := by
  simp only [bitsVal, List.foldl_append]
  rw [bitsVal_from]

theorem bitsVal_lt (l : List Bool) : bitsVal l < 2 ^ l.length := by
  induction l with
  | nil => simp [bitsVal]
  | cons x l ih =>
    rw [bitsVal_cons, List.length_cons]
    have h1 : x.toNat * 2 ^ l.length ≤ 2 ^ l.length := by
      calc x.toNat * 2 ^ l.length ≤ 1 * 2 ^ l.length :=
            Nat.mul_le_mul_right _ (Bool.toNat_le x)
        _ = 2 ^ l.length := Nat.one_mul _
    have h3 : (2 : Nat) ^ (l.length + 1) = 2 * 2 ^ l.length := by
      rw [Nat.pow_succ]; ring
    omega

theorem bitsVal_replicate_false (k : Nat) :
    bitsVal (List.replicate k false) = 0 := by
  induction k with
  | zero => simp [bitsVal]
  | succ k ih =>
    rw [List.replicate_succ, bitsVal_cons, ih]
    simp

theorem length_natBits (n k : Nat) : (natBits n k).length = k := by
  induction k with
  | zero => simp [natBits]
  | succ k ih => simp [natBits, ih]

theorem bitsVal_natBits (n k : Nat) : bitsVal (natBits n k) = n % 2 ^ k := by
  induction k with
  | zero => simp [natBits, bitsVal, Nat.mod_one]
  | succ k ih =>
    rw [natBits, bitsVal_cons, length_natBits, ih]
    have htb : (n.testBit k).toNat = n / 2 ^ k % 2 := by
      rw [Nat.testBit_to_div_mod]
      rcases Nat.mod_two_eq_zero_or_one (n / 2 ^ k) with h | h <;> simp [h]
    rw [htb, Nat.pow_succ]
    have hmm := Nat.mod_mul (a := 2 ^ k) (b := 2) (x := n)
    have hcomm : n / 2 ^ k % 2 * 2 ^ k = 2 ^ k * (n / 2 ^ k % 2) :=
      Nat.mul_comm _ _
    omega

theorem bytesToBits_nil : bytesToBits [] = [] := rfl

theorem bytesToBits_cons (b : Nat) (rest : List Nat) :
    bytesToBits (b :: rest) = natBits b 8 ++ bytesToBits rest := by
  simp [bytesToBits]

theorem bytesToBits_length (data : List Nat) :
    (bytesToBits data).length = 8 * data.length := by
  induction data with
  | nil => rfl
  | cons b rest ih =>
    rw [bytesToBits_cons, List.length_append, length_natBits, ih,
      List.length_cons]
    ring

theorem bitsVal_slice (l : List Bool) (v j k : Nat)
    (hval : bitsVal l = v % 2 ^ l.length) (hjk : j + k ≤ l.length) :
    bitsVal ((l.drop j).take k) = v >>> (l.length - j - k) % 2 ^ k := by
  set m := l.length with hm
  set A := l.take j with hA
  set B := (l.drop j).take k with hB
  set C := (l.drop j).drop k with hC
  have hlenA : A.length = j := by
    rw [hA, List.length_take]
    omega
  have hlenB : B.length = k := by
    rw [hB, List.length_take, List.length_drop]
    omega
  have hlenC : C.length = m - j - k := by
    rw [hC, List.length_drop, List.length_drop]
  have hdecomp : l = A ++ (B ++ C) := by
    rw [hA, hB, hC, List.take_append_drop, List.take_append_drop]
  have hvalB : bitsVal B < 2 ^ k := by
    have := bitsVal_lt B
    rwa [hlenB] at this
  have hvalC : bitsVal C < 2 ^ (m - j - k) := by
    have := bitsVal_lt C
    rwa [hlenC] at this
  have hsplit : bitsVal l =
      (bitsVal A * 2 ^ k + bitsVal B) * 2 ^ (m - j - k) + bitsVal C := by
    conv_lhs => rw [hdecomp]
    rw [bitsVal_append, bitsVal_append, List.length_append, hlenB, hlenC]
    rw [Nat.pow_add]
    ring
  -- value of l determines the middle slice by div and mod
  have hdiv : bitsVal l / 2 ^ (m - j - k) = bitsVal A * 2 ^ k + bitsVal B := by
    rw [hsplit, Nat.add_comm,
      Nat.add_mul_div_right _ _ (Nat.two_pow_pos (m - j - k)),
      Nat.div_eq_of_lt hvalC]
    omega
  have hmid : bitsVal l / 2 ^ (m - j - k) % 2 ^ k = bitsVal B := by
    rw [hdiv, Nat.add_comm, Nat.add_mul_mod_self_right]
    exact Nat.mod_eq_of_lt hvalB
  -- now relate to v
  have hv : v >>> (m - j - k) % 2 ^ k = bitsVal l / 2 ^ (m - j - k) % 2 ^ k := by
    rw [hval, Nat.shiftRight_eq_div_pow]
    have hmsplit : (2 : Nat) ^ m = 2 ^ (m - j - k) * 2 ^ (j + k) := by
      rw [← Nat.pow_add]
      congr 1
      omega
    rw [hmsplit, Nat.mod_mul_right_div_self]
    have hdvd : (2 : Nat) ^ k ∣ 2 ^ (j + k) :=
      Nat.pow_dvd_pow 2 (by omega)
    rw [Nat.mod_mod_of_dvd _ hdvd]
  rw [hv, hmid]

/-- Groups emitted by the drain loop from `bits` pending bits of `acc`,
most significant group first. -/
def drainGroups (acc bits : Nat) : List Nat :=
  (List.range (bits / 5)).map fun i => acc >>> (bits - 5 * (i + 1)) % 32

theorem b32Drain_spec : ∀ fuel acc bits conv, bits ≤ fuel →
    b32Drain fuel acc bits conv = (bits % 5, conv ++ drainGroups acc bits) := by
  intro fuel
  induction fuel with
  | zero =>
    intro acc bits conv h
    have hz : bits = 0 := Nat.le_zero.1 h
    subst hz
    simp [b32Drain, drainGroups]
  | succ fuel ih =>
    intro acc bits conv h
    by_cases h5 : bits ≥ 5
    · have hgroups : drainGroups acc bits =
          acc >>> (bits - 5) % 32 :: drainGroups acc (bits - 5) := by
        unfold drainGroups
        have hdiv : bits / 5 = (bits - 5) / 5 + 1 := by omega
        rw [hdiv, List.range_succ_eq_map, List.map_cons, List.map_map]
        refine congrArg₂ List.cons (by norm_num) ?_
        apply List.map_congr_left
        intro i _
        simp only [Function.comp_apply, Nat.succ_eq_add_one]
        have he : bits - 5 * (i + 1 + 1) = bits - 5 - 5 * (i + 1) := by omega
        rw [he]
      simp only [b32Drain, if_pos h5]
      rw [ih acc (bits - 5) _ (by omega), hgroups]
      have hmod : (bits - 5) % 5 = bits % 5 := by omega
      rw [hmod]
      simp
    · simp only [b32Drain, if_neg h5]
      have hdiv0 : bits / 5 = 0 := by omega
      have hmod : bits % 5 = bits := by omega
      simp [drainGroups, hdiv0, hmod]

theorem drainGroups_eq_fullGroupVals (acc : Nat) (P : List Bool)
    (hval : bitsVal P = acc % 2 ^ P.length) :
    drainGroups acc P.length = fullGroupVals P := by
  unfold drainGroups fullGroupVals
  apply List.map_congr_left
  intro i hi
  rw [List.mem_range] at hi
  have h5 : 5 * i + 5 ≤ P.length := by omega
  have hsl := bitsVal_slice P acc (5 * i) 5 hval (by omega)
  rw [hsl]
  have he : P.length - 5 * i - 5 = P.length - 5 * (i + 1) := by omega
  rw [he]
  norm_num

theorem fullGroupVals_small (l : List Bool) (h : l.length < 5) :
    fullGroupVals l = [] := by
  unfold fullGroupVals
  have hz : l.length / 5 = 0 := by omega
  simp [hz]

theorem remBits_small (l : List Bool) (h : l.length < 5) : remBits l = l := by
  unfold remBits
  have hz : l.length / 5 = 0 := by omega
  simp [hz]

theorem fullGroupVals_peel (l : List Bool) (h : 5 ≤ l.length) :
    fullGroupVals l = bitsVal (l.take 5) :: fullGroupVals (l.drop 5) := by
  unfold fullGroupVals
  have hdiv : l.length / 5 = (l.drop 5).length / 5 + 1 := by
    rw [List.length_drop]; omega
  rw [hdiv, List.range_succ_eq_map, List.map_cons, List.map_map]
  refine congrArg₂ List.cons (by norm_num) ?_
  apply List.map_congr_left
  intro i _
  simp only [Function.comp_apply, Nat.succ_eq_add_one]
  rw [List.drop_drop, show ∀ i : Nat, 5 + 5 * i = 5 * (i + 1) from fun i => by ring]

theorem remBits_peel (l : List Bool) (h : 5 ≤ l.length) :
    remBits l = remBits (l.drop 5) := by
  unfold remBits
  rw [List.drop_drop]
  have hlen : (List.drop 5 l).length = l.length - 5 := by
    rw [List.length_drop]
  congr 1
  omega

theorem fullGroupVals_append_rem : ∀ n (X Y : List Bool), X.length ≤ n →
    fullGroupVals (X ++ Y) =
        fullGroupVals X ++ fullGroupVals (remBits X ++ Y) ∧
      remBits (X ++ Y) = remBits (remBits X ++ Y) := by
  intro n
  induction n with
  | zero =>
    intro X Y h
    have hX : X = [] := List.eq_nil_of_length_eq_zero (by omega)
    subst hX
    rw [remBits_small [] (by simp)]
    simp [fullGroupVals_small [] (by simp)]
  | succ n ih =>
    intro X Y h
    by_cases h5 : 5 ≤ X.length
    · have hXY5 : 5 ≤ (X ++ Y).length := by rw [List.length_append]; omega
      have htake : (X ++ Y).take 5 = X.take 5 :=
        List.take_append_of_le_length h5
      have hdrop : (X ++ Y).drop 5 = X.drop 5 ++ Y :=
        List.drop_append_of_le_length h5
      have hlen : (X.drop 5).length ≤ n := by rw [List.length_drop]; omega
      obtain ⟨ih1, ih2⟩ := ih (X.drop 5) Y hlen
      constructor
      · rw [fullGroupVals_peel _ hXY5, htake, hdrop, ih1,
          fullGroupVals_peel X h5, remBits_peel X h5]
        simp
      · rw [remBits_peel _ hXY5, hdrop, ih2, remBits_peel X h5]
    · constructor
      · rw [fullGroupVals_small X (by omega), remBits_small X (by omega)]
        simp
      · rw [remBits_small X (by omega)]

theorem nat_or_eq_add (x b : Nat) (hb : b < 256) (hdvd : 256 ∣ x) :
    x ||| b = x + b := by
  obtain ⟨a, ha⟩ := hdvd
  subst ha
  have h256 : (256 : Nat) = 2 ^ 8 := by norm_num
  rw [h256]
  exact (Nat.mul_add_lt_is_or (by simpa [h256] using hb) a).symm

theorem acc2_mod (acc bits b : Nat) (hb : b < 256) (hbits : bits < 5) :
    (((acc <<< 8) % 4294967296) ||| b) % 2 ^ (bits + 8) =
      acc % 2 ^ bits * 256 + b := by
  have hdvd : (256 : Nat) ∣ (acc <<< 8) % 4294967296 := by
    rw [Nat.shiftLeft_eq]
    refine (Nat.dvd_mod_iff (by norm_num)).2 ⟨acc, by norm_num [Nat.mul_comm]⟩
  rw [nat_or_eq_add _ b hb hdvd]
  set M := 2 ^ (bits + 8) with hM
  have hMdvd : M ∣ 4294967296 := by
    rw [hM, show (4294967296 : Nat) = 2 ^ 32 by norm_num]
    exact Nat.pow_dvd_pow 2 (by omega)
  have hx : (acc <<< 8) % 4294967296 % M = acc % 2 ^ bits * 256 := by
    rw [Nat.mod_mod_of_dvd _ hMdvd, Nat.shiftLeft_eq, hM, Nat.pow_add,
      show (2 : Nat) ^ 8 = 256 by norm_num]
    exact Nat.mul_mod_mul_right 256 acc (2 ^ bits)
  have hM256 : 256 ≤ M := by
    rw [hM, show (256 : Nat) = 2 ^ 8 by norm_num]
    exact Nat.pow_le_pow_right (by norm_num) (by omega)
  have hbound : acc % 2 ^ bits * 256 + b < M := by
    have h2 : acc % 2 ^ bits < 2 ^ bits := Nat.mod_lt _ (Nat.two_pow_pos bits)
    have h4 : M = 2 ^ bits * 256 := by
      rw [hM, Nat.pow_add, show (2 : Nat) ^ 8 = 256 by norm_num]
    omega
  calc ((acc <<< 8) % 4294967296 + b) % M
      = ((acc <<< 8) % 4294967296 % M + b % M) % M := by rw [Nat.add_mod]
    _ = (acc % 2 ^ bits * 256 + b) % M := by
        rw [hx, Nat.mod_eq_of_lt (by omega : b < M)]
    _ = acc % 2 ^ bits * 256 + b := Nat.mod_eq_of_lt hbound

theorem b32Loop_spec : ∀ (data : List Nat), (∀ x ∈ data, x < 256) →
    ∀ acc bits conv (P : List Bool), bits < 5 → P.length = bits →
      bitsVal P = acc % 2 ^ bits →
      (b32Loop data acc bits conv).2.2 =
          conv ++ fullGroupVals (P ++ bytesToBits data) ∧
        (b32Loop data acc bits conv).2.1 =
          (P ++ bytesToBits data).length % 5 ∧
        (b32Loop data acc bits conv).1 %
            2 ^ ((P ++ bytesToBits data).length % 5) =
          bitsVal (remBits (P ++ bytesToBits data)) := by
  intro data
  induction data with
  | nil =>
    intro hd acc bits conv P hb hlen hval
    simp only [b32Loop, bytesToBits_nil, List.append_nil]
    refine ⟨?_, by omega, ?_⟩
    · rw [fullGroupVals_small P (by omega), List.append_nil]
    · rw [remBits_small P (by omega)]
      have h1 : P.length % 5 = bits := by omega
      rw [h1, hval]
  | cons b rest ih =>
    intro hd acc bits conv P hb hlen hval
    have hb256 : b < 256 := hd b (by simp)
    set acc2 := ((acc <<< 8) % 4294967296) ||| b with hacc2
    have hdrain := b32Drain_spec (bits + 8) acc2 (bits + 8) conv (le_refl _)
    set P' := P ++ natBits b 8 with hP'
    have hlenP' : P'.length = bits + 8 := by
      rw [hP', List.length_append, length_natBits, hlen]
    have hvalP' : bitsVal P' = acc2 % 2 ^ (bits + 8) := by
      rw [hP', bitsVal_append, length_natBits, bitsVal_natBits, hacc2,
        acc2_mod acc bits b hb256 hb, hval]
      norm_num [Nat.mod_eq_of_lt hb256]
    have hgroups : drainGroups acc2 (bits + 8) = fullGroupVals P' := by
      have h := drainGroups_eq_fullGroupVals acc2 P'
        (by rw [hlenP']; exact hvalP')
      rwa [hlenP'] at h
    set r := (bits + 8) % 5 with hr
    set P'' := remBits P' with hP''
    have hlenP'' : P''.length = r := by
      rw [hP'', remBits, List.length_drop, hlenP', hr]
      omega
    have hvalP'' : bitsVal P'' = acc2 % 2 ^ r := by
      have hj : 5 * (P'.length / 5) + r ≤ P'.length := by rw [hlenP']; omega
      have hsl := bitsVal_slice P' acc2 (5 * (P'.length / 5)) r
        (by rw [hlenP']; exact hvalP') hj
      have htk : (P'.drop (5 * (P'.length / 5))).take r = P'' := by
        rw [hP'', remBits]
        apply List.take_of_length_le
        rw [List.length_drop, hlenP']
        omega
      rw [htk] at hsl
      have hz : P'.length - 5 * (P'.length / 5) - r = 0 := by
        rw [hlenP']; omega
      rw [hsl, hz]
      simp [Nat.shiftRight_eq_div_pow]
    have ihres := ih (fun x hx => hd x (by simp [hx])) acc2 r
      (conv ++ drainGroups acc2 (bits + 8)) P'' (by omega) hlenP'' hvalP''
    obtain ⟨hfa, hra⟩ :=
      fullGroupVals_append_rem P'.length P' (bytesToBits rest) (le_refl _)
    have hsplit : P ++ bytesToBits (b :: rest) = P' ++ bytesToBits rest := by
      rw [bytesToBits_cons, hP', List.append_assoc]
    have hlens : (P'' ++ bytesToBits rest).length % 5 =
        (P ++ bytesToBits (b :: rest)).length % 5 := by
      rw [hsplit, List.length_append, List.length_append, hlenP'', hlenP', hr]
      omega
    simp only [b32Loop]
    rw [hdrain]
    refine ⟨?_, ?_, ?_⟩
    · rw [ihres.1, hsplit, hfa, hgroups, hP'', List.append_assoc]
    · rw [ihres.2.1, hlens]
    · rw [← hlens, ihres.2.2, hsplit, hra, hP'']

theorem remBits_length (l : List Bool) :
    (remBits l).length = l.length % 5 := by
  rw [remBits, List.length_drop]
  omega

theorem fullGroupVals_length (l : List Bool) :
    (fullGroupVals l).length = l.length / 5 := by
  unfold fullGroupVals
  simp

theorem convertBits8to5_eq_spec (data : List Nat)
    (h : ∀ b ∈ data, b < 256) :
    convertBits8to5 data = specRegroupRightPad data := by
  obtain ⟨h1, h2, h3⟩ := b32Loop_spec data h 0 0 [] []
    (by norm_num) rfl (by simp [bitsVal])
  simp only [List.nil_append] at h1 h2 h3
  unfold convertBits8to5 specRegroupRightPad
  set B := bytesToBits data with hB
  set s := b32Loop data 0 0 [] with hs
  by_cases hz : B.length % 5 = 0
  · have hcond : ¬ s.2.1 > 0 := by rw [h2, hz]; omega
    rw [if_neg hcond, h1, if_pos hz]
    simp
  · have hcond : s.2.1 > 0 := by rw [h2]; omega
    rw [if_pos hcond, if_neg hz, h1, h2]
    congr 1
    have hrem : bitsVal (remBits B ++ List.replicate (5 - B.length % 5) false) =
        bitsVal (remBits B) * 2 ^ (5 - B.length % 5) := by
      rw [bitsVal_append, bitsVal_replicate_false, List.length_replicate]
      omega
    rw [hrem, ← h3]
    set r := B.length % 5 with hrdef
    have hr5 : r < 5 := Nat.mod_lt _ (by norm_num)
    rw [Nat.mod_mod_of_dvd _ (by norm_num : (32 : Nat) ∣ 4294967296),
      Nat.shiftLeft_eq,
      show (32 : Nat) = 2 ^ r * 2 ^ (5 - r) by
        rw [← Nat.pow_add, show r + (5 - r) = 5 by omega]]
    exact congrArg List.cons
      (Nat.mul_mod_mul_right (2 ^ (5 - r)) s.1 (2 ^ r)) ▸ rfl

/-- C5 counterexample: the claim reads \"left-padding the final partial
group with zero bits\"; literal left-padding is refuted by the single byte
`0x01`, whose trailing 3 bits `001` become the group `00100` (value 4, the
bits shifted left / zero-filled on the right), not `00001` (value 1). -/
theorem convertBits8to5_c5_counterexample :
    convertBits8to5 [1] ≠ specRegroupLeftPad [1] ∧
    convertBits8to5 [1] = [0, 4] ∧ specRegroupLeftPad [1] = [0, 1] := by
  decide

/-- C5 (amended): for every byte sequence, the encoder re-groups the 8-bit
bytes into 5-bit groups most-significant-bit first, padding the final
partial group with zero bits on the least significant (right) side, and
emits no extra group when the leftover is zero bits; a data length whose
bit count is a multiple of 5 produces exactly `length * 8 / 5` groups. -/
theorem convertBits8to5_regroups (data : List Nat)
    (h : ∀ b ∈ data, b < 256) :
    convertBits8to5 data = specRegroupRightPad data ∧
    (data.length * 8 % 5 = 0 →
      (convertBits8to5 data).length = data.length * 8 / 5) := by
  have heq := convertBits8to5_eq_spec data h
  refine ⟨heq, fun hz => ?_⟩
  rw [heq]
  unfold specRegroupRightPad
  have hlen : (bytesToBits data).length = 8 * data.length :=
    bytesToBits_length data
  have hz8 : (bytesToBits data).length % 5 = 0 := by rw [hlen]; omega
  rw [if_pos hz8]
  rw [List.append_nil, fullGroupVals_length, hlen]
  omega

/-- C5 witness: the amended regrouping law evaluated at the byte `0x01` and
at twenty zero bytes (160 bits, exactly 32 groups). -/
theorem convertBits8to5_regroups_witness :
    convertBits8to5 [1] = specRegroupRightPad [1] ∧
    ((List.replicate 20 (0 : Nat)).length * 8 % 5 = 0 ∧
      (convertBits8to5 (List.replicate 20 (0 : Nat))).length = 32) :=
  ⟨(convertBits8to5_regroups [1] (by decide)).1,
   by decide,
   ((convertBits8to5_regroups (List.replicate 20 0) (by decide)).2
       (by decide)).trans (by decide)⟩

theorem gen_fold_lt (b : Nat) (l : List (Nat × Nat))
    (hg : ∀ p ∈ l, p.2 < 2 ^ 30) :
    ∀ c, c < 2 ^ 30 →
      l.foldl (fun c ig => if (b >>> ig.1) &&& 1 = 1 then c ^^^ ig.2 else c)
        c < 2 ^ 30 := by
  induction l with
  | nil => intro c hc; simpa using hc
  | cons p rest ih =>
    intro c hc
    simp only [List.foldl_cons]
    apply ih (fun q hq => hg q (by simp [hq]))
    by_cases hcond : (b >>> p.1) &&& 1 = 1
    · rw [if_pos hcond]
      exact Nat.xor_lt_two_pow hc (hg p (by simp))
    · rwa [if_neg hcond]

theorem polymodStep_lt (chk v : Nat) (hv : v < 32) :
    polymodStep chk v < 2 ^ 30 := by
  unfold polymodStep
  apply gen_fold_lt
  · decide
  · apply Nat.xor_lt_two_pow
    · rw [Nat.shiftLeft_eq]
      calc (chk &&& 0x1ffffff) * 2 ^ 5 < 2 ^ 25 * 2 ^ 5 :=
            (Nat.mul_lt_mul_right (by norm_num)).mpr
              (Nat.and_lt_two_pow chk (by norm_num))
        _ = 2 ^ 30 := by norm_num
    · calc v < 32 := hv
        _ ≤ 2 ^ 30 := by norm_num

theorem bech32_polymod_lt_aux : ∀ (l : List Nat), (∀ v ∈ l, v < 32) →
    ∀ c, c < 2 ^ 30 → l.foldl polymodStep c < 2 ^ 30 := by
  intro l
  induction l with
  | nil => intro h c hc; simpa using hc
  | cons v rest ih =>
    intro h c _
    simp only [List.foldl_cons]
    exact ih (fun x hx => h x (by simp [hx])) _
      (polymodStep_lt c v (h v (by simp)))

theorem bech32_polymod_lt (values : List Nat) (h : ∀ v ∈ values, v < 32) :
    bech32_polymod values < 2 ^ 30 :=
  bech32_polymod_lt_aux values h 1 (by norm_num)

theorem shiftRight_and_31 (x k : Nat) :
    x >>> (5 * k) &&& 31 = x / 32 ^ k % 32 := by
  rw [Nat.shiftRight_eq_div_pow]
  have h2 : (2 : Nat) ^ (5 * k) = 32 ^ k := by
    rw [Nat.pow_mul]
  rw [h2]
  have h3 := Nat.and_pow_two_sub_one_eq_mod (x / 32 ^ k) 5
  norm_num at h3
  exact h3

/-- C6: the Bech32 checksum of the encoder agrees with the
specification's description: the seed sequence is the high 3 bits of each
prefix character, a zero separator, and the low 5 bits of each prefix
character; the data groups and six zero placeholders are appended; the
30-bit-state polynomial reduction with the five fixed 32-bit generator
constants is XORed with 1 and six 5-bit values are extracted most
significant group first.  The state of the reduction stays below `2^30`
whenever every input value fits in 5 bits. -/
theorem bech32_checksum_matches_spec (hrp : String) (data : List Nat) :
    bech32_checksum hrp (convertBits8to5 data) =
      specChecksum hrp (convertBits8to5 data) ∧
    (∀ values, (∀ v ∈ values, v < 32) → bech32_polymod values < 2 ^ 30) ∧
    GEN.length = 5 ∧ ∀ g ∈ GEN, g < 2 ^ 32 := by
  refine ⟨?_, fun values hv => bech32_polymod_lt values hv, by decide,
    by decide⟩
  unfold bech32_checksum specChecksum
  have hseed : expand_hrp hrp =
      hrp.data.map (fun c => c.toNat % 256 / 32) ++ [0]
        ++ hrp.data.map (fun c => c.toNat % 256 % 32) := by
    unfold expand_hrp
    have hsh : ∀ x : Nat, x >>> 5 = x / 32 := fun x => by
      rw [Nat.shiftRight_eq_div_pow]
    have han : ∀ x : Nat, x &&& 0x1f = x % 32 := fun x => by
      have := Nat.and_pow_two_sub_one_eq_mod x 5
      norm_num at this
      exact this
    simp [hsh, han]
  rw [hseed]
  apply List.map_congr_left
  intro i _
  exact shiftRight_and_31 _ (5 - i)

/-- C6 witness: the checksum agreement and the 30-bit state bound evaluated
on concrete inputs. -/
theorem bech32_checksum_matches_spec_witness :
    bech32_checksum "celestia" (convertBits8to5 [0]) =
      specChecksum "celestia" (convertBits8to5 [0]) ∧
    bech32_polymod [31, 0] < 2 ^ 30 :=
  ⟨(bech32_checksum_matches_spec "celestia" [0]).1,
   (bech32_checksum_matches_spec "celestia" [0]).2.1 [31, 0] (by decide)⟩

theorem b32Drain_mem_lt : ∀ fuel acc bits conv, (∀ x ∈ conv, x < 32) →
    ∀ x ∈ (b32Drain fuel acc bits conv).2, x < 32 := by
  intro fuel
  induction fuel with
  | zero =>
    intro acc bits conv h
    simpa [b32Drain] using h
  | succ fuel ih =>
    intro acc bits conv h
    by_cases h5 : bits ≥ 5
    · simp only [b32Drain, if_pos h5]
      refine ih acc (bits - 5) _ ?_
      intro y hy
      rcases List.mem_append.1 hy with hy | hy
      · exact h y hy
      · simp at hy
        subst hy
        exact Nat.mod_lt _ (by norm_num)
    · simp only [b32Drain, if_neg h5]
      exact h

theorem b32Loop_mem_lt : ∀ data acc bits conv, (∀ x ∈ conv, x < 32) →
    ∀ x ∈ (b32Loop data acc bits conv).2.2, x < 32 := by
  intro data
  induction data with
  | nil =>
    intro acc bits conv h
    simpa [b32Loop] using h
  | cons b rest ih =>
    intro acc bits conv h
    simp only [b32Loop]
    exact ih _ _ _ (b32Drain_mem_lt (bits + 8) _ (bits + 8) conv h)

theorem convertBits8to5_mem_lt (data : List Nat) :
    ∀ x ∈ convertBits8to5 data, x < 32 := by
  unfold convertBits8to5
  intro x hx
  split at hx
  · rcases List.mem_append.1 hx with hx | hx
    · exact b32Loop_mem_lt data 0 0 [] (by simp) x hx
    · simp at hx
      subst hx
      exact Nat.mod_lt _ (by norm_num)
  · exact b32Loop_mem_lt data 0 0 [] (by simp) x hx

theorem bech32_checksum_mem_lt (hrp : String) (conv : List Nat) :
    ∀ x ∈ bech32_checksum hrp conv, x < 32 := by
  unfold bech32_checksum
  intro x hx
  simp only [List.mem_map] at hx
  obtain ⟨i, _, rfl⟩ := hx
  rw [shiftRight_and_31]
  exact Nat.mod_lt _ (by norm_num)

theorem bech32_checksum_length (hrp : String) (conv : List Nat) :
    (bech32_checksum hrp conv).length = 6 := by
  unfold bech32_checksum
  simp

theorem charset_getD_mem (b : Nat) (hb : b < 32) :
    CHARSET.getD b ' ' ∈ CHARSET := by
  have hlen : CHARSET.length = 32 := rfl
  rw [List.getD_eq_getElem?_getD, List.getElem?_eq_getElem (by omega)]
  exact List.getElem_mem _

/-- C8: the encoder's output is the prefix, the separator `'1'`, the
alphabet-mapped data groups, and exactly six alphabet-mapped checksum
characters, each mapped character drawn from the 32-character alphabet; the
total length is `hrp.length + 1 + groups + 6`; encoding 20 zero bytes with
prefix `"celestia"` starts with `"celestia1"` and has length 47; encoding
empty data yields prefix, `'1'`, and a six-character checksum suffix. -/
theorem bech32_encode_output_structure (hrp : String) (data : List Nat) :
    bech32_encode hrp data =
      hrp ++ "1"
        ++ String.mk ((convertBits8to5 data).map fun b => CHARSET.getD b ' ')
        ++ String.mk ((bech32_checksum hrp (convertBits8to5 data)).map
            fun b => CHARSET.getD b ' ') ∧
    (bech32_checksum hrp (convertBits8to5 data)).length = 6 ∧
    (∀ c ∈ ((convertBits8to5 data).map fun b => CHARSET.getD b ' ')
        ++ ((bech32_checksum hrp (convertBits8to5 data)).map
            fun b => CHARSET.getD b ' '), c ∈ CHARSET) ∧
    (bech32_encode hrp data).length =
      hrp.length + 1 + (convertBits8to5 data).length + 6 ∧
    (bech32_encode hrp []).length = hrp.length + 7 ∧
    (bech32_encode "celestia" (List.replicate 20 0)).data.take 9 =
      "celestia1".data ∧
    (bech32_encode "celestia" (List.replicate 20 0)).length = 47 := by
  have hstruct : bech32_encode hrp data =
      hrp ++ "1"
        ++ String.mk ((convertBits8to5 data).map fun b => CHARSET.getD b ' ')
        ++ String.mk ((bech32_checksum hrp (convertBits8to5 data)).map
            fun b => CHARSET.getD b ' ') := rfl
  have hlen : ∀ (h : String) (d : List Nat), (bech32_encode h d).length =
      h.length + 1 + (convertBits8to5 d).length + 6 := by
    intro h d
    show (h ++ "1"
        ++ String.mk ((convertBits8to5 d).map fun b => CHARSET.getD b ' ')
        ++ String.mk ((bech32_checksum h (convertBits8to5 d)).map
            fun b => CHARSET.getD b ' ')).length = _
    simp only [String.length_append, String.length_mk, List.length_map,
      bech32_checksum_length]
    have h1 : ("1" : String).length = 1 := rfl
    omega
  refine ⟨hstruct, bech32_checksum_length hrp _, ?_, hlen hrp data, ?_, ?_, ?_⟩
  · intro c hc
    rcases List.mem_append.1 hc with hc | hc <;>
      obtain ⟨b, hb, rfl⟩ := List.mem_map.1 hc
    · exact charset_getD_mem b (convertBits8to5_mem_lt data b hb)
    · exact charset_getD_mem b (bech32_checksum_mem_lt hrp _ b hb)
  · rw [hlen hrp []]
    rfl
  · decide
  · rw [hlen "celestia" (List.replicate 20 0)]
    decide

set_option maxRecDepth 4000 in
/-- C8 witness: a concrete checksum character of the empty-data encoding
lies in the alphabet, and the 20-zero-byte vector has length 47. -/
theorem bech32_encode_output_structure_witness :
    '7' ∈ CHARSET ∧
    (bech32_encode "celestia" (List.replicate 20 0)).length = 47 :=
  ⟨(bech32_encode_output_structure "celestia" []).2.2.1 '7' (by decide),
   (bech32_encode_output_structure "celestia"
      (List.replicate 20 0)).2.2.2.2.2.2⟩

/-! ### Signer errors, digest validation and key resolution
(`src/sdk-rust/src/celestia.rs`) -/

/-- `SignerError` (`src/sdk-rust/src/celestia.rs` lines 109-122).  The
`Rpc` and `Grpc` variants exist only under the `celestia` cargo feature
and are omitted (default feature set). -/
inductive SignerError where
  | Network (msg : String)
  | Authentication (msg : String)
  | KeyNotFound (msg : String)
  | SigningFailed (msg : String)
  | RateLimited
  | InvalidInput (msg : String)
  | Config (msg : String)
  deriving DecidableEq, Repr

/-- Display strings of the SDK error enum, following the `thiserror`
format attributes in `src/sdk-rust/src/error.rs`. -/
def popErrorToString : POPSignerError → String
  | .Api code message status_code =>
      "API error (" ++ toString status_code ++ "): [" ++ code ++ "] "
        ++ message
  | .Http e => "HTTP error: " ++ e
  | .Decode msg => "Decode error: " ++ msg
  | .Unauthorized => "Unauthorized: invalid API key"
  | .RateLimited => "Rate limit exceeded"
  | .QuotaExceeded msg => "Quota exceeded: " ++ msg
  | .KeyNotFound msg => "Key not found: " ++ msg
  | .NamespaceNotFound msg => "Namespace not found: " ++ msg
  | .OrgNotFound msg => "Organization not found: " ++ msg
  | .InvalidRequest msg => "Invalid request: " ++ msg
  | .SigningError msg => "Signing error: " ++ msg
  | .BatchPartialFailure failed total =>
      "Batch operation had " ++ toString failed ++ " failures out of "
        ++ toString total ++ " requests"

/-- `impl From<POPSignerError> for SignerError`
(`src/sdk-rust/src/celestia.rs` lines 144-158); the catch-all arm converts
through the error's display string. -/
def signerErrorFrom : POPSignerError → SignerError
  | .Unauthorized => .Authentication "invalid API key"
  | .RateLimited => .RateLimited
  | .KeyNotFound msg => .KeyNotFound msg
  | .Http e => .Network e
  | .SigningError msg => .SigningFailed msg
  | .Api _ message _ => .SigningFailed message
  | other => .SigningFailed (popErrorToString other)

/-- Kinds of the Signer error taxonomy. -/
inductive ErrorKind where
  | network
  | authentication
  | keyNotFound
  | signingFailed
  | rateLimited
  | invalidInput
  | config
  deriving DecidableEq, Repr

/-- Classification of a `SignerError` by constructor. -/
def kindOf : SignerError → ErrorKind
  | .Network _ => .network
  | .Authentication _ => .authentication
  | .KeyNotFound _ => .keyNotFound
  | .SigningFailed _ => .signingFailed
  | .RateLimited => .rateLimited
  | .InvalidInput _ => .invalidInput
  | .Config _ => .config

/-- Modelled from the spec: the required error-taxonomy translation table
(unauthorized to Authentication, rate-limited to RateLimited,
key-not-found to KeyNotFound, transport/connection failure to Network,
every other service-reported failure to SigningFailed). -/
def specErrorKind : POPSignerError → ErrorKind
  | .Unauthorized => .authentication
  | .RateLimited => .rateLimited
  | .KeyNotFound _ => .keyNotFound
  | .Http _ => .network
  | _ => .signingFailed

/-- C4: the error translation is total — a total function on the
lower-level error enum — and maps every lower-level error to exactly the
kind the specification's table requires. -/
theorem signerErrorFrom_total_spec :
    ∀ e : POPSignerError, kindOf (signerErrorFrom e) = specErrorKind e := by
  intro e
  cases e <;> rfl

/-- `POPSignerSigner.sign_digest` (`src/sdk-rust/src/celestia.rs` lines
283-299), with the remote signing call abstracted: `remote digest true`
stands for `client.sign().sign(&key_id, digest, true)`.  The second
component counts the remote calls issued. -/
def signer_sign_digest
    (remote : List Nat → Bool → Except POPSignerError SignResponse)
    (digest : List Nat) : Except SignerError (List Nat) × Nat :=
  if digest.length ≠ 32 then
    (.error (.InvalidInput ("digest must be 32 bytes, got "
      ++ toString digest.length)), 0)
  else
    match remote digest true with
    | .error e => (.error (signerErrorFrom e), 1)
    | .ok response => (.ok response.signature, 1)

/-- C7: local input validation is fail-fast and never reaches the network:
a digest whose length is not 32 makes `sign_digest` fail with
`InvalidInput` issuing zero remote calls, and a public key whose length is
not 33 makes address derivation fail with the local invalid-input error
(`InvalidRequest` is the SDK enum's name for the spec's locally detected
`InvalidInput` kind; derivation is pure and issues no call at all). -/
theorem local_validation_fail_fast
    (remote : List Nat → Bool → Except POPSignerError SignResponse)
    (sha256 ripemd160 : List Nat → List Nat) (digest pk : List Nat)
    (hd : digest.length ≠ 32) (hp : pk.length ≠ 33) :
    signer_sign_digest remote digest =
      (.error (.InvalidInput ("digest must be 32 bytes, got "
        ++ toString digest.length)), 0) ∧
    derive_celestia_address sha256 ripemd160 pk =
      .error (.InvalidRequest
        ("invalid public key length: expected 33 bytes, got "
          ++ toString pk.length)) := by
  constructor
  · unfold signer_sign_digest
    rw [if_pos hd]
  · unfold derive_celestia_address
    rw [if_pos hp]

/-- C7 witness: 31- and 33-byte digests, 32- and 34-byte public keys. -/
theorem local_validation_fail_fast_witness :
    signer_sign_digest (fun _ _ => .error .RateLimited)
        (List.replicate 31 0) =
      (.error (.InvalidInput "digest must be 32 bytes, got 31"), 0) ∧
    signer_sign_digest (fun _ _ => .error .RateLimited)
        (List.replicate 33 0) =
      (.error (.InvalidInput "digest must be 32 bytes, got 33"), 0) ∧
    derive_celestia_address id id (List.replicate 32 0) =
      .error (.InvalidRequest
        "invalid public key length: expected 33 bytes, got 32") ∧
    derive_celestia_address id id (List.replicate 34 0) =
      .error (.InvalidRequest
        "invalid public key length: expected 33 bytes, got 34") :=
  ⟨((local_validation_fail_fast (fun _ _ => .error .RateLimited) id id
        (List.replicate 31 0) (List.replicate 32 0) (by decide)
        (by decide)).1).trans (by decide),
   ((local_validation_fail_fast (fun _ _ => .error .RateLimited) id id
        (List.replicate 33 0) (List.replicate 34 0) (by decide)
        (by decide)).1).trans (by decide),
   ((local_validation_fail_fast (fun _ _ => .error .RateLimited) id id
        (List.replicate 31 0) (List.replicate 32 0) (by decide)
        (by decide)).2).trans (by decide),
   ((local_validation_fail_fast (fun _ _ => .error .RateLimited) id id
        (List.replicate 33 0) (List.replicate 34 0) (by decide)
        (by decide)).2).trans (by decide)⟩

/-- C2: on a 33-byte public key, address derivation returns the Bech32
encoding, with prefix `"celestia"`, of the RIPEMD-160 hash of the SHA-256
hash of the key bytes; it is a pure function of the input, so identical
inputs give identical addresses. -/
theorem derive_celestia_address_pipeline
    (sha256 ripemd160 : List Nat → List Nat) (pk : List Nat)
    (h : pk.length = 33) :
    derive_celestia_address sha256 ripemd160 pk =
      .ok (bech32_encode "celestia" (ripemd160 (sha256 pk))) ∧
    ∀ pk2, pk2 = pk →
      derive_celestia_address sha256 ripemd160 pk2 =
        derive_celestia_address sha256 ripemd160 pk := by
  constructor
  · unfold derive_celestia_address
    rw [if_neg (by omega)]
  · intro pk2 h2
    rw [h2]

/-- C2 witness: the pipeline evaluated at 33 zero bytes with concrete
stand-ins for the external hash functions. -/
theorem derive_celestia_address_pipeline_witness :
    derive_celestia_address (fun _ => List.replicate 32 7)
        (fun _ => List.replicate 20 3) (List.replicate 33 0) =
      .ok (bech32_encode "celestia" (List.replicate 20 3)) ∧
    derive_celestia_address (fun _ => List.replicate 32 7)
        (fun _ => List.replicate 20 3) (List.replicate 33 0) =
      derive_celestia_address (fun _ => List.replicate 32 7)
        (fun _ => List.replicate 20 3) (List.replicate 33 0) :=
  ⟨(derive_celestia_address_pipeline (fun _ => List.replicate 32 7)
      (fun _ => List.replicate 20 3) (List.replicate 33 0) (by decide)).1,
   (derive_celestia_address_pipeline (fun _ => List.replicate 32 7)
      (fun _ => List.replicate 20 3) (List.replicate 33 0) (by decide)).2
     (List.replicate 33 0) rfl⟩

/-- Cryptographic key record (`Key`, `src/sdk-rust/src/types.rs`), reduced
to the fields that `resolve_key` and the signer constructor read (`id`,
`name`, `public_key`); the remaining metadata fields do not influence the
verified operations.  `Uuid` is modelled as `Nat`. -/
structure Key where
  id : Nat
  name : String
  public_key : String
  deriving DecidableEq, Repr

/-- Call issued to the keys client: direct get by identifier, or list. -/
inductive ApiCall where
  | get (id : Nat)
  | list
  deriving DecidableEq, Repr

/-- Message built by `resolve_key` for the key-not-found failure,
following `format!("key '{}' not found (available: {:?})", ..)`; the
`{:?}` rendering of the name vector is modelled with `toString`. -/
def keyNotFoundMsg (name : String) (available : List String) : String :=
  "key '" ++ name ++ "' not found (available: " ++ toString available ++ ")"

/-- `POPSignerSigner::resolve_key` (`src/sdk-rust/src/celestia.rs` lines
221-244) with its collaborators abstracted: `parse` is `Uuid::parse_str`,
`getK` is `client.keys().get`, and `listK n` is the outcome of the `n`-th
`client.keys().list(None)` call — the function lists once to search by
exact name and, in the not-found path, a second time to gather the
available names, defaulting to the empty list if that second call fails
(`unwrap_or_default`).  The second component records the issued calls in
order. -/
def resolve_key (parse : String → Option Nat)
    (getK : Nat → Except POPSignerError Key)
    (listK : Nat → Except POPSignerError (List Key))
    (key_name_or_id : String) :
    Except POPSignerError Key × List ApiCall :=
  match parse key_name_or_id with
  | some key_id => (getK key_id, [.get key_id])
  | none =>
    match listK 0 with
    | .error e => (.error e, [.list])
    | .ok keys =>
      match keys.find? (fun k => k.name == key_name_or_id) with
      | some key => (.ok key, [.list])
      | none =>
        (.error (.KeyNotFound (keyNotFoundMsg key_name_or_id
          (match listK 1 with
           | .ok keys2 => keys2.map Key.name
           | .error _ => []))), [.list, .list])

theorem keyNotFoundMsg_embeds (name : String) (available : List String) :
    ∃ a b, keyNotFoundMsg name available = a ++ (name ++ b) := by
  refine ⟨"key '",
    "' not found (available: " ++ toString available ++ ")", ?_⟩
  unfold keyNotFoundMsg
  simp [String.append_assoc]

/-- C3: a string parsing as a key identifier issues exactly one direct get
and no list call; a non-identifier string lists the keys and returns the
first exact name match; with no match the call fails with `KeyNotFound`
whose message embeds the attempted name and the available key names, the
names degrading to the empty list when the name-gathering list call itself
fails. -/
theorem resolve_key_spec (parse : String → Option Nat)
    (getK : Nat → Except POPSignerError Key)
    (listK : Nat → Except POPSignerError (List Key)) (s : String) :
    (∀ id, parse s = some id →
      resolve_key parse getK listK s = (getK id, [.get id]) ∧
      ApiCall.list ∉ (resolve_key parse getK listK s).2) ∧
    (parse s = none → ∀ keys, listK 0 = .ok keys →
      (∀ k, keys.find? (fun k => k.name == s) = some k →
        resolve_key parse getK listK s = (.ok k, [.list]) ∧ k.name = s) ∧
      (keys.find? (fun k => k.name == s) = none →
        ∃ names,
          resolve_key parse getK listK s =
            (.error (.KeyNotFound (keyNotFoundMsg s names)),
              [.list, .list]) ∧
          ((∃ keys2, listK 1 = .ok keys2 ∧ names = keys2.map Key.name) ∨
            ((listK 1).isOk = false ∧ names = [])) ∧
          ∃ a b, keyNotFoundMsg s names = a ++ (s ++ b))) := by
  constructor
  · intro id hid
    unfold resolve_key
    rw [hid]
    exact ⟨rfl, by simp⟩
  · intro hnone keys hkeys
    unfold resolve_key
    rw [hnone, hkeys]
    dsimp only
    constructor
    · intro k hk
      rw [hk]
      refine ⟨rfl, ?_⟩
      have := List.find?_some hk
      simpa using this
    · intro hnf
      rw [hnf]
      rcases hl1 : listK 1 with e | keys2
      · exact ⟨[], rfl, Or.inr ⟨rfl, rfl⟩, keyNotFoundMsg_embeds s []⟩
      · exact ⟨keys2.map Key.name, rfl, Or.inl ⟨keys2, rfl, rfl⟩,
          keyNotFoundMsg_embeds s (keys2.map Key.name)⟩

/-- Fixtures for the key-resolution witness. -/
def parseW : String → Option Nat := fun s => if s = "u" then some 7 else none

/-- Direct-get collaborator for the key-resolution witness. -/
def getKW : Nat → Except POPSignerError Key := fun i => .ok ⟨i, "k", "pk"⟩

/-- Listing collaborator returning one key named `"alpha"`. -/
def listKW : Nat → Except POPSignerError (List Key) :=
  fun _ => .ok [⟨1, "alpha", "p"⟩]

/-- Listing collaborator whose second call fails. -/
def listKW2 : Nat → Except POPSignerError (List Key) :=
  fun n => if n = 0 then .ok [] else .error .RateLimited

/-- C3 witness: the identifier path, the exact-name path and the
degraded-names path evaluated on concrete collaborators. -/
theorem resolve_key_spec_witness :
    (resolve_key parseW getKW listKW "u" = (.ok ⟨7, "k", "pk"⟩, [.get 7]) ∧
      ApiCall.list ∉ (resolve_key parseW getKW listKW "u").2) ∧
    resolve_key parseW getKW listKW "alpha" =
      (.ok ⟨1, "alpha", "p"⟩, [.list]) ∧
    (∃ names,
      resolve_key parseW getKW listKW2 "beta" =
        (.error (.KeyNotFound (keyNotFoundMsg "beta" names)),
          [.list, .list]) ∧
      ((∃ keys2, listKW2 1 = .ok keys2 ∧ names = keys2.map Key.name) ∨
        ((listKW2 1).isOk = false ∧ names = [])) ∧
      ∃ a b, keyNotFoundMsg "beta" names = a ++ ("beta" ++ b)) :=
  ⟨⟨(((resolve_key_spec parseW getKW listKW "u").1 7 (by decide)).1).trans
      (by decide),
    ((resolve_key_spec parseW getKW listKW "u").1 7 (by decide)).2⟩,
   (((resolve_key_spec parseW getKW listKW "alpha").2 (by decide)
        [⟨1, "alpha", "p"⟩] (by decide)).1 ⟨1, "alpha", "p"⟩ (by decide)).1,
   ((resolve_key_spec parseW getKW listKW2 "beta").2 (by decide) []
        (by decide)).2 (by decide)⟩

end PopSigner
